import Mathlib

/-!
# qbit-orphanage: verification of the file-relationship correlation engine

Shallow embedding of the core of the `qbit-orphanage` repository
(`src/qbit_arr/core/hardlink.py`, `src/qbit_arr/core/scanner.py`,
`src/qbit_arr/api/qbit_client.py`, data model in `src/qbit_arr/core/models.py`)
and proofs about hardlink grouping, file classification, relationship
building, orphan detection and cross-seed detection.

Paths are modelled as strings (the Python code compares `pathlib.Path`
values, which after normalisation behaves as string equality), sizes,
inodes, device ids and timestamps as natural numbers, and the filesystem
as an explicit value: a list of directories (each with the ordered list of
regular files its recursive glob yields) together with an association list
giving each path's `stat` result (`none` models an `OSError`).
-/

namespace QbitArr

/-- Result of `path.stat()` as consumed by the code: device id, inode
number, size in bytes, hardlink count, modification time. -/
structure StatResult where
  st_dev : Nat
  st_ino : Nat
  st_size : Nat
  st_nlink : Nat
  st_mtime : Nat
deriving DecidableEq, Inhabited

/-- A directory as seen by `Path.glob("**/*")`: its name and the ordered
list of regular-file paths the recursive walk yields. -/
structure Directory where
  name : String
  entries : List String
deriving DecidableEq, Inhabited

/-- The filesystem a scan runs against: the directories that exist and a
path → stat-result table (`none` / absence models `OSError`). -/
structure Filesystem where
  dirs : List Directory
  stats : List (String × StatResult)
deriving DecidableEq, Inhabited

def findDir (fs : Filesystem) (name : String) : Option Directory :=
  fs.dirs.find? (fun d => d.name == name)

def statOf (fs : Filesystem) (p : String) : Option StatResult :=
  (fs.stats.find? (fun e => e.1 == p)).map (·.2)

/-- `models.MediaFile`: note that it records the inode but *no device id*
(`hardlink.py` discards `st_dev` when building it). -/
structure MediaFile where
  path : String
  size : Nat
  inode : Nat
  hardlink_count : Nat
  modified : Nat
deriving DecidableEq, Inhabited

/-- `models.HardlinkGroup`: keyed by inode alone, exactly as in the code. -/
structure HardlinkGroup where
  inode : Nat
  files : List String
  total_size : Nat
  hardlink_count : Nat
deriving DecidableEq, Inhabited

/-- State of `hardlink.HardlinkDetector`: `inode_map` is a
`defaultdict(list)` from inode to the paths appended under it (association
list in key-insertion order), `file_cache` a dict from path to
`MediaFile`. -/
structure HardlinkDetector where
  inode_map : List (Nat × List String)
  file_cache : List (String × MediaFile)
deriving DecidableEq, Inhabited

def emptyDetector : HardlinkDetector := ⟨[], []⟩

/-- `defaultdict(list)` update `m[i].append(p)`: append to the existing
key's list, or add a new key at the end. -/
def bumpInode : List (Nat × List String) → Nat → String → List (Nat × List String)
  | [], i, p => [(i, [p])]
  | (j, l) :: rest, i, p =>
    if j == i then (j, l ++ [p]) :: rest else (j, l) :: bumpInode rest i p

/-- dict assignment `c[p] = mf`: replace in place or add at the end. -/
def cacheInsert : List (String × MediaFile) → String → MediaFile → List (String × MediaFile)
  | [], p, mf => [(p, mf)]
  | (q, g) :: rest, p, mf =>
    if q == p then (q, mf) :: rest else (q, g) :: cacheInsert rest p mf

def cacheGet (c : List (String × MediaFile)) (p : String) : Option MediaFile :=
  (c.find? (fun e => e.1 == p)).map (·.2)

def inodeGet (m : List (Nat × List String)) (i : Nat) : Option (List String) :=
  (m.find? (fun e => e.1 == i)).map (·.2)

/-- `HardlinkDetector._get_file_info`: build a `MediaFile` from `stat`
(the device id `st_dev` is dropped here — the source of the inode-only
grouping bug). -/
def get_file_info (st : StatResult) (p : String) : MediaFile :=
  ⟨p, st.st_size, st.st_ino, st.st_nlink, st.st_mtime⟩

/-- One iteration of the `scan_directory` loop: stat the path (an
`OSError` skips the file), append the `MediaFile` to the result list, the
path to `inode_map[st.st_ino]` and the record to `file_cache`. -/
def scanStep (fs : Filesystem) (acc : List MediaFile × HardlinkDetector) (p : String) :
    List MediaFile × HardlinkDetector :=
  match statOf fs p with
  | none => acc
  | some st =>
    let mf := get_file_info st p
    (acc.1 ++ [mf],
     ⟨bumpInode acc.2.inode_map st.st_ino p, cacheInsert acc.2.file_cache p mf⟩)

/-- `HardlinkDetector.scan_directory` (recursive case, the only one the
scanner uses): a missing directory yields `([], det)`; otherwise every
regular file of the recursive glob is processed by `scanStep`. -/
def scan_directory (fs : Filesystem) (dir : String) (det : HardlinkDetector) :
    List MediaFile × HardlinkDetector :=
  match findDir fs dir with
  | none => ([], det)
  | some d => d.entries.foldl (scanStep fs) ([], det)

/-- `HardlinkDetector.get_hardlink_groups`: one group per inode-map entry
with more than one path, provided the first path has a cache entry; the
group's size is the first file's size and its `hardlink_count` the number
of paths. -/
def get_hardlink_groups (det : HardlinkDetector) : List HardlinkGroup :=
  det.inode_map.filterMap
    (fun e =>
      if e.2.length > 1 then
        match e.2 with
        | [] => none
        | p0 :: _ =>
          match cacheGet det.file_cache p0 with
          | some ff => some ⟨e.1, e.2, ff.size, e.2.length⟩
          | none => none
      else none)

/-- `HardlinkDetector.get_hardlinks_for_file`: stat the path (failure →
`[]`), then `inode_map.get(inode, [file_path])`. -/
def get_hardlinks_for_file (fs : Filesystem) (det : HardlinkDetector) (p : String) :
    List String :=
  match statOf fs p with
  | none => []
  | some st =>
    match inodeGet det.inode_map st.st_ino with
    | some paths => paths
    | none => [p]

/-- One iteration of the `scan_all` root loop: `if path.exists()` scan it
(extending the shared detector) and extend the raw list. -/
def rootStep (fs : Filesystem) (acc : List MediaFile × HardlinkDetector) (r : String) :
    List MediaFile × HardlinkDetector :=
  if (findDir fs r).isSome then
    let s := scan_directory fs r acc.2
    (acc.1 ++ s.1, s.2)
  else acc

/-- `MediaScanner.scan_all` step 2, per root list: each existing root is
scanned (sharing one detector) and the raw file lists concatenated; a
non-existing root is skipped. -/
def scan_roots (fs : Filesystem) (roots : List String) (det : HardlinkDetector) :
    List MediaFile × HardlinkDetector :=
  roots.foldl (rootStep fs) ([], det)

/-! ## Skip patterns (`scanner.SKIP_PATTERNS`, `qbit_client.SKIP_PATTERNS`)

The Python patterns are `(?i)`-flagged regular expressions searched with
`re.search`. They are modelled on lower-cased character lists (ASCII case
folding, which coincides with `(?i)` on the ASCII paths the patterns talk
about): plain substrings, `$`-anchored suffixes, slash-delimited optional
plural segments, the `[\s-]*`-separated word chains, and the
word-boundary pattern for `proof`. -/

/-- ASCII lower-casing of one character. -/
def lowerChar (c : Char) : Char :=
  if 'A' ≤ c ∧ c ≤ 'Z' then Char.ofNat (c.toNat + 32) else c

def lower (s : String) : List Char := s.toList.map lowerChar

/-- Substring test on character lists (`re.search` of a literal). -/
def listContains : List Char → List Char → Bool
  | [], pat => pat.isEmpty
  | c :: cs, pat => pat.isPrefixOf (c :: cs) || listContains cs pat

def containsStr (l : List Char) (pat : String) : Bool :=
  listContains l pat.toList

/-- `$`-anchored suffix test. -/
def endsWith (l : List Char) (pat : String) : Bool :=
  pat.toList.isSuffixOf l

def isSlash (c : Char) : Bool := c == '/' || c == '\\'

/-- Match a literal at the head, returning the remainder. -/
def matchLit : List Char → List Char → Option (List Char)
  | [], l => some l
  | _ :: _, [] => none
  | p :: ps, c :: cs => if p == c then matchLit ps cs else none

/-- Greedy `[\s-]*` (Python `\s` is `[ \t\n\x0b\x0c\r]` on ASCII). -/
def skipSpaceDash : List Char → List Char
  | [] => []
  | c :: cs =>
    if c == ' ' || c == '\t' || c == '\n' || c == '\x0b' || c == '\x0c' ||
        c == '\r' || c == '-' then
      skipSpaceDash cs
    else c :: cs

/-- `word` then an optional `s` then a slash, at the head of `l`. -/
def segTail (word : List Char) (l : List Char) : Bool :=
  match matchLit word l with
  | none => false
  | some r =>
    match r with
    | 's' :: c2 :: _ => isSlash c2
    | c2 :: _ => isSlash c2
    | [] => false

/-- `[/\\]word s?[/\\]` at the head of `l`. -/
def matchSegAt (word : List Char) (l : List Char) : Bool :=
  match l with
  | [] => false
  | c :: rest => isSlash c && segTail word rest

/-- Words separated by `[\s-]*`, the last one followed by `s?[/\\]`. -/
def chainTail : List (List Char) → List Char → Bool
  | [], _ => false
  | [last], l => segTail last l
  | w :: ws, l =>
    match matchLit w l with
    | none => false
    | some r => chainTail ws (skipSpaceDash r)

/-- `[/\\]` then a `[\s-]*`-separated word chain ending in `s?[/\\]` — the
shape of the behind-the-scenes and deleted-scenes patterns. -/
def matchChainAt (ws : List (List Char)) (l : List Char) : Bool :=
  match l with
  | [] => false
  | c :: rest => isSlash c && chainTail ws rest

/-- Try a head-anchored matcher at every position of `l`. -/
def anyPos (p : List Char → Bool) : List Char → Bool
  | [] => p []
  | c :: cs => p (c :: cs) || anyPos p cs

def isWordChar (c : Char) : Bool := c.isAlphanum || c == '_'

/-- `\bproof\b` on a lower-cased list: `proof` at some position with no
word character on either side. -/
def proofAux (prev : Option Char) : List Char → Bool
  | [] => false
  | c :: cs =>
    ((match matchLit "proof".toList (c :: cs) with
      | none => false
      | some rest =>
        (match prev with
         | none => true
         | some q => !isWordChar q) &&
          (match rest with
           | [] => true
           | r :: _ => !isWordChar r)) : Bool) ||
      proofAux (some c) cs

def sampleHit (p : String) : Bool := containsStr (lower p) "sample"
def trailerHit (p : String) : Bool := containsStr (lower p) "trailer"
def proofHit (p : String) : Bool := proofAux none (lower p)
def extHit (p : String) (ext : String) : Bool := endsWith (lower p) ext
def segHit (p : String) (word : String) : Bool :=
  anyPos (matchSegAt word.toList) (lower p)
def chainHit (p : String) (ws : List String) : Bool :=
  anyPos (matchChainAt (ws.map String.toList)) (lower p)

/-- `scanner.should_skip_file`: true iff any pattern of
`scanner.SKIP_PATTERNS` matches. -/
def should_skip_file (p : String) : Bool :=
  sampleHit p || extHit p ".nfo" || extHit p ".txt" || extHit p ".srt" ||
    extHit p ".sub" || extHit p ".idx" || extHit p ".jpg" || extHit p ".jpeg" ||
    extHit p ".png" || extHit p ".gif" || extHit p ".bmp" ||
    segHit p "sub" || segHit p "extra" || segHit p "featurette" ||
    chainHit p ["behind", "the", "scene"] || chainHit p ["deleted", "scene"] ||
    trailerHit p || proofHit p || extHit p ".srr"

/-- `qbit_client.should_skip_torrent_file`: the (shorter) qBittorrent-side
pattern list, plus the lenient 10 MiB size floor. -/
def should_skip_torrent_file (p : String) (size : Nat) : Bool :=
  sampleHit p || extHit p ".nfo" || extHit p ".txt" || extHit p ".srt" ||
    extHit p ".sub" || extHit p ".idx" || extHit p ".jpg" || extHit p ".jpeg" ||
    extHit p ".png" || trailerHit p || proofHit p ||
    decide (size < 10 * 1024 * 1024)

/-- `scanner.MIN_MEDIA_SIZE` (100 MiB). -/
def MIN_MEDIA_SIZE : Nat := 100 * 1024 * 1024

/-- Output of `scanner.classify_files` (the `result` dict). -/
structure Classified where
  main_files : List MediaFile
  samples : List MediaFile
  extras : List MediaFile
  skipped : List MediaFile
deriving DecidableEq, Inhabited

/-- `scanner.classify_files` with the loop rendered as structural
recursion (each file is appended to exactly one category in iteration
order): sample match first, then the other skip patterns, then the size
floor, else main. -/
def classify_files : List MediaFile → Classified
  | [] => ⟨[], [], [], []⟩
  | f :: fs =>
    let rest := classify_files fs
    if sampleHit f.path then { rest with samples := f :: rest.samples }
    else if should_skip_file f.path then { rest with skipped := f :: rest.skipped }
    else if f.size < MIN_MEDIA_SIZE then { rest with extras := f :: rest.extras }
    else { rest with main_files := f :: rest.main_files }

/-! ## Torrent / media data model (`models.py`) -/

/-- `models.TorrentFile`. -/
structure TorrentFile where
  path : String
  size : Nat
deriving DecidableEq, Inhabited

/-- `models.TorrentInfo` (as delivered by `QBittorrentClient.get_torrents`,
with `tracker = none` when no non-DHT tracker exists). -/
structure TorrentInfo where
  hash : String
  name : String
  category : String
  save_path : String
  state : String
  added_on : Nat
  tracker : Option String
  files : List TorrentFile
deriving DecidableEq, Inhabited

/-- `models.ArrMedia` (Radarr movie / Sonarr series). -/
structure ArrMedia where
  id : Nat
  title : String
  service : String
  file_path : Option String
  folder_path : String
  monitored : Bool
  has_file : Bool
deriving DecidableEq, Inhabited

/-- `models.FileRelationship`. -/
structure FileRelationship where
  file_path : String
  size : Nat
  inode : Nat
  hardlink_count : Nat
  hardlinked_files : List String
  torrents : List String
  arr_services : List String
  is_orphaned : Bool
  orphan_reason : Option String
deriving DecidableEq, Inhabited

/-- `models.OrphanedFile`. -/
structure OrphanedFile where
  path : String
  size : Nat
  location : String
  reason : String
  modified : Nat
deriving DecidableEq, Inhabited

/-- `models.CrossSeedGroup`. The code stores `files` as
`list(frozenset(...))` in unspecified iteration order; the set itself is
what is meaningful, so it is modelled as a `Finset`. -/
structure CrossSeedGroup where
  files : Finset String
  torrents : List TorrentInfo
  trackers : Finset String
  total_size : Nat
deriving DecidableEq, Inhabited

/-! ## Orphan detection (`MediaScanner._find_orphaned_files`)

`sonarrResult` models the outcome of `self.sonarr_client.get_episode_files()`:
`none` is the exception branch (logged and degraded to the empty set). -/

/-- The set `torrent_tracked_paths` (membership semantics; the Python set
collects the same paths). -/
def torrent_tracked_paths (torrents : List TorrentInfo) : List String :=
  torrents.flatMap (fun t => t.files.map (·.path))

/-- The set `radarr_tracked_paths = {m.file_path for m in radarr_media if m.file_path}`. -/
def radarr_tracked_paths (radarr_media : List ArrMedia) : List String :=
  radarr_media.filterMap (·.file_path)

/-- `MediaScanner._find_orphaned_files`: untracked torrent-directory files
first (location `"torrent"`, reason `"Not tracked by any torrent"`), then
untracked library-directory files (location `"library"`, reason
`"Not tracked by Radarr or Sonarr"`). -/
def find_orphaned_files (torrent_files library_files : List MediaFile)
    (torrents : List TorrentInfo) (radarr_media : List ArrMedia)
    (sonarrResult : Option (List String)) : List OrphanedFile :=
  let torrentTracked := torrent_tracked_paths torrents
  let radarrTracked := radarr_tracked_paths radarr_media
  let sonarrTracked := sonarrResult.getD []
  (torrent_files.filter (fun f => !torrentTracked.contains f.path)).map
      (fun f => ⟨f.path, f.size, "torrent", "Not tracked by any torrent", f.modified⟩) ++
    (library_files.filter
        (fun f => !radarrTracked.contains f.path && !sonarrTracked.contains f.path)).map
      (fun f => ⟨f.path, f.size, "library", "Not tracked by Radarr or Sonarr", f.modified⟩)

/-! ## Cross-seed detection (`MediaScanner._find_cross_seed_groups`) -/

/-- `frozenset(f.path for f in torrent.files)`. -/
def pathSet (t : TorrentInfo) : Finset String :=
  (t.files.map (·.path)).toFinset

/-- `defaultdict(list)` keyed by frozenset: append under an existing key
or add a new key at the end. -/
def bumpGroup : List (Finset String × List TorrentInfo) → Finset String → TorrentInfo →
    List (Finset String × List TorrentInfo)
  | [], k, t => [(k, [t])]
  | (k2, l) :: rest, k, t =>
    if k2 = k then (k2, l ++ [t]) :: rest else (k2, l) :: bumpGroup rest k t

/-- One iteration of the grouping loop: `if torrent.files:` then append
under the torrent's exact path set. -/
def groupStep (acc : List (Finset String × List TorrentInfo)) (t : TorrentInfo) :
    List (Finset String × List TorrentInfo) :=
  if t.files.isEmpty then acc else bumpGroup acc (pathSet t) t

/-- The `file_to_torrents` map: torrents with a non-empty file list,
grouped by their exact file-path set. -/
def file_to_torrents (torrents : List TorrentInfo) :
    List (Finset String × List TorrentInfo) :=
  torrents.foldl groupStep []

/-- `{t.tracker for t in torrent_group if t.tracker}`. -/
def trackerSet (tg : List TorrentInfo) : Finset String :=
  (tg.filterMap (·.tracker)).toFinset

/-- `sum(f.size for f in torrent_group[0].files)`. -/
def repSize (tg : List TorrentInfo) : Nat :=
  match tg with
  | [] => 0
  | t :: _ => (t.files.map (·.size)).sum

/-- `MediaScanner._find_cross_seed_groups`. -/
def find_cross_seed_groups (torrents : List TorrentInfo) : List CrossSeedGroup :=
  (file_to_torrents torrents).filterMap
    (fun e =>
      if e.2.length > 1 then some ⟨e.1, e.2, trackerSet e.2, repSize e.2⟩
      else none)

/-! ## Relationship building (`MediaScanner._build_file_relationships`)

The Python `relationships: Dict[Path, FileRelationship]` is an
insertion-ordered dict, modelled as an association list with unique keys:
creation appends a new key at the end, the in-place
`relationships[p].torrents.append(...)` / `.arr_services.append(...)`
mutations update the entry at the key. -/

abbrev RelMap := List (String × FileRelationship)

def relFind (m : RelMap) (p : String) : Option FileRelationship :=
  (m.find? (fun e => e.1 == p)).map (·.2)

/-- `relationships[p].torrents.append(h)` (no-op when `p` is not a key). -/
def relAppendTorrent (m : RelMap) (p : String) (h : String) : RelMap :=
  m.map (fun e =>
    if e.1 == p then (e.1, { e.2 with torrents := e.2.torrents ++ [h] }) else e)

/-- `relationships[p].arr_services.append(s)` (no-op when `p` is not a key). -/
def relAppendService (m : RelMap) (p : String) (s : String) : RelMap :=
  m.map (fun e =>
    if e.1 == p then (e.1, { e.2 with arr_services := e.2.arr_services ++ [s] }) else e)

/-- `next((f for f in all_files if f.path == p), None)`. -/
def findFileInfo (all_files : List MediaFile) (p : String) : Option MediaFile :=
  all_files.find? (fun f => f.path == p)

/-- One iteration of the torrent-files loop: create the entry if absent
and the path was scanned, then append the torrent hash when the entry
exists. -/
def processTorrentFile (fs : Filesystem) (det : HardlinkDetector)
    (all_files : List MediaFile) (hash : String) (m : RelMap) (tf : TorrentFile) :
    RelMap :=
  let m1 :=
    if (relFind m tf.path).isSome then m
    else
      match findFileInfo all_files tf.path with
      | some fi =>
        m ++ [(tf.path,
          ⟨tf.path, tf.size, fi.inode, fi.hardlink_count,
           get_hardlinks_for_file fs det tf.path, [], [], false, none⟩)]
      | none => m
  relAppendTorrent m1 tf.path hash

/-- The torrent-processing phase of `_build_file_relationships`. -/
def processTorrents (fs : Filesystem) (det : HardlinkDetector)
    (all_files : List MediaFile) (torrents : List TorrentInfo) (m : RelMap) : RelMap :=
  torrents.foldl
    (fun m1 t => t.files.foldl (processTorrentFile fs det all_files t.hash) m1) m

/-- One iteration of the Radarr loop: append `"radarr"` when the path is
already a key, else create the entry when the path was scanned. -/
def processRadarrItem (fs : Filesystem) (det : HardlinkDetector)
    (all_files : List MediaFile) (m : RelMap) (md : ArrMedia) : RelMap :=
  match md.file_path with
  | none => m
  | some p =>
    if (relFind m p).isSome then relAppendService m p "radarr"
    else
      match findFileInfo all_files p with
      | some fi =>
        m ++ [(p,
          ⟨p, fi.size, fi.inode, fi.hardlink_count,
           get_hardlinks_for_file fs det p, [], ["radarr"], false, none⟩)]
      | none => m

def processRadarr (fs : Filesystem) (det : HardlinkDetector)
    (all_files : List MediaFile) (radarr_media : List ArrMedia) (m : RelMap) : RelMap :=
  radarr_media.foldl (processRadarrItem fs det all_files) m

/-- One iteration of the Sonarr loop over the enumerated episode paths. -/
def processSonarrPath (fs : Filesystem) (det : HardlinkDetector)
    (all_files : List MediaFile) (m : RelMap) (p : String) : RelMap :=
  if (relFind m p).isSome then relAppendService m p "sonarr"
  else
    match findFileInfo all_files p with
    | some fi =>
      m ++ [(p,
        ⟨p, fi.size, fi.inode, fi.hardlink_count,
         get_hardlinks_for_file fs det p, [], ["sonarr"], false, none⟩)]
    | none => m

/-- The Sonarr phase: when `get_episode_files()` raises (`none`), the
whole block is skipped with a warning. -/
def processSonarr (fs : Filesystem) (det : HardlinkDetector)
    (all_files : List MediaFile) (sonarrResult : Option (List String)) (m : RelMap) :
    RelMap :=
  match sonarrResult with
  | none => m
  | some paths => paths.foldl (processSonarrPath fs det all_files) m

/-- `MediaScanner._build_file_relationships`:
`list(relationships.values())` after the three phases. -/
def build_file_relationships (fs : Filesystem) (det : HardlinkDetector)
    (torrents : List TorrentInfo) (radarr_media : List ArrMedia)
    (sonarrResult : Option (List String)) (all_files : List MediaFile) :
    List FileRelationship :=
  (processSonarr fs det all_files sonarrResult
      (processRadarr fs det all_files radarr_media
        (processTorrents fs det all_files torrents []))).map (·.2)

/-! ## `scan_all`, filesystem part (step 2): scan both root categories
with one shared detector and keep the `main_files` classification. -/

structure FsScanOutcome where
  torrent_files : List MediaFile
  library_files : List MediaFile
  detector : HardlinkDetector
deriving DecidableEq, Inhabited

/-- Steps 2–3 of `MediaScanner.scan_all`: scan torrent roots then library
roots (the detector accumulates across both), classify each raw list and
keep its `main_files`. -/
def scan_all_fs (fs : Filesystem) (torrentRoots libraryRoots : List String) :
    FsScanOutcome :=
  let t := scan_roots fs torrentRoots emptyDetector
  let l := scan_roots fs libraryRoots t.2
  ⟨(classify_files t.1).main_files, (classify_files l.1).main_files, l.2⟩

/-! ## Classification lemmas -/

theorem classify_files_samples (files : List MediaFile) :
    (classify_files files).samples = files.filter (fun f => sampleHit f.path) := by
  induction files with
  | nil => rfl
  | cons f fs ih =>
    simp only [classify_files, List.filter_cons]
    by_cases h1 : sampleHit f.path
    · simp [h1, ih]
    · by_cases h2 : should_skip_file f.path
      · simp [h1, h2, ih]
      · by_cases h3 : f.size < MIN_MEDIA_SIZE
        · simp [h1, h2, h3, ih]
        · simp [h1, h2, h3, ih]

theorem classify_files_skipped (files : List MediaFile) :
    (classify_files files).skipped =
      files.filter (fun f => !sampleHit f.path && should_skip_file f.path) := by
  induction files with
  | nil => rfl
  | cons f fs ih =>
    simp only [classify_files, List.filter_cons]
    by_cases h1 : sampleHit f.path
    · simp [h1, ih]
    · by_cases h2 : should_skip_file f.path
      · simp [h1, h2, ih]
      · by_cases h3 : f.size < MIN_MEDIA_SIZE
        · simp [h1, h2, h3, ih]
        · simp [h1, h2, h3, ih]

theorem classify_files_extras (files : List MediaFile) :
    (classify_files files).extras =
      files.filter
        (fun f => !sampleHit f.path && !should_skip_file f.path &&
          decide (f.size < MIN_MEDIA_SIZE)) := by
  induction files with
  | nil => rfl
  | cons f fs ih =>
    simp only [classify_files, List.filter_cons]
    by_cases h1 : sampleHit f.path
    · simp [h1, ih]
    · by_cases h2 : should_skip_file f.path
      · simp [h1, h2, ih]
      · by_cases h3 : f.size < MIN_MEDIA_SIZE
        · simp [h1, h2, h3, ih]
        · simp [h1, h2, h3, ih]

theorem classify_files_main (files : List MediaFile) :
    (classify_files files).main_files =
      files.filter
        (fun f => !sampleHit f.path && !should_skip_file f.path &&
          !decide (f.size < MIN_MEDIA_SIZE)) := by
  induction files with
  | nil => rfl
  | cons f fs ih =>
    simp only [classify_files, List.filter_cons]
    by_cases h1 : sampleHit f.path
    · simp [h1, ih]
    · by_cases h2 : should_skip_file f.path
      · simp [h1, h2, ih]
      · by_cases h3 : f.size < MIN_MEDIA_SIZE
        · simp [h1, h2, h3, ih]
        · simp [h1, h2, h3, ih]

/-! ## Concrete fixtures used by witnesses and counterexamples -/

/-- A one-directory filesystem whose two files sit on different devices
(1 and 2) but share inode number 5. -/
def fsDev : Filesystem :=
  ⟨[⟨"/mnt", ["/mnt/a", "/mnt/b"]⟩],
   [("/mnt/a", ⟨1, 5, 100, 1, 0⟩), ("/mnt/b", ⟨2, 5, 100, 1, 0⟩)]⟩

/-- A filesystem with a genuine hardlink pair (`/d/a`, `/d/b` share device
and inode) and a singleton `/d/c`. -/
def fsPair : Filesystem :=
  ⟨[⟨"/d", ["/d/a", "/d/b", "/d/c"]⟩],
   [("/d/a", ⟨1, 7, 300, 2, 0⟩), ("/d/b", ⟨1, 7, 300, 2, 0⟩),
    ("/d/c", ⟨1, 8, 400, 1, 0⟩)]⟩

/-- The empty filesystem. -/
def fsEmpty : Filesystem := ⟨[], []⟩

/-! ## C9 -/

/-- C9: scanning a root directory that does not exist returns the empty
file list (and leaves the detector untouched) rather than an error, and in
the `scan_all` loop such a root contributes zero files. -/
theorem C9_missing_root (fs : Filesystem) (dir : String) (det : HardlinkDetector)
    (h : findDir fs dir = none) :
    scan_directory fs dir det = ([], det) ∧
    ∀ roots, scan_roots fs (dir :: roots) det = scan_roots fs roots det := by
  constructor
  · simp [scan_directory, h]
  · intro roots
    simp [scan_roots, rootStep, h]

theorem C9_missing_root_witness :
    scan_directory fsEmpty "/missing" emptyDetector = ([], emptyDetector) ∧
    scan_roots fsEmpty ["/missing"] emptyDetector =
      scan_roots fsEmpty [] emptyDetector := by
  have h := C9_missing_root fsEmpty "/missing" emptyDetector (by decide)
  exact ⟨h.1, h.2 []⟩

/-! ## C1 -/

/-- C1: the claim that two files with equal inode number but different
device ids are never placed in the same reported `HardlinkGroup` is
violated by the code: `HardlinkDetector` keys its index by inode alone
(`MediaFile` does not even record the device id), so `/mnt/a` on device 1
and `/mnt/b` on device 2, both with inode 5, are reported as one group. -/
theorem C1_inode_only_grouping :
    (statOf fsDev "/mnt/a").map (·.st_dev) = some 1 ∧
    (statOf fsDev "/mnt/b").map (·.st_dev) = some 2 ∧
    (get_hardlink_groups (scan_directory fsDev "/mnt" emptyDetector).2).map (·.files) =
      [["/mnt/a", "/mnt/b"]] := by
  decide

/-! ## C3 -/

/-- C3: `classify_files` is an exhaustive, disjoint partition assigned by
precedence: a path with a case-insensitive `sample` match is a sample;
otherwise a path matching any other skip pattern is skipped; otherwise a
file below the 100 MiB floor is an extra; otherwise it is main. The four
characterisations below are mutually exclusive and cover every file, so
each input file lands in exactly one category. -/
theorem C3_classification_partition (files : List MediaFile) (f : MediaFile)
    (hf : f ∈ files) :
    (f ∈ (classify_files files).samples ∨ f ∈ (classify_files files).skipped ∨
      f ∈ (classify_files files).extras ∨ f ∈ (classify_files files).main_files) ∧
    (f ∈ (classify_files files).samples ↔ sampleHit f.path = true) ∧
    (f ∈ (classify_files files).skipped ↔
      (sampleHit f.path = false ∧ should_skip_file f.path = true)) ∧
    (f ∈ (classify_files files).extras ↔
      (sampleHit f.path = false ∧ should_skip_file f.path = false ∧
        f.size < MIN_MEDIA_SIZE)) ∧
    (f ∈ (classify_files files).main_files ↔
      (sampleHit f.path = false ∧ should_skip_file f.path = false ∧
        MIN_MEDIA_SIZE ≤ f.size)) := by
  simp only [classify_files_samples, classify_files_skipped, classify_files_extras,
    classify_files_main, List.mem_filter, hf, true_and, Bool.and_eq_true,
    Bool.not_eq_true', decide_eq_true_eq, Bool.not_eq_true, decide_eq_false_iff_not,
    Nat.not_lt]
  constructor
  · by_cases h1 : sampleHit f.path
    · exact Or.inl h1
    · by_cases h2 : should_skip_file f.path
      · simp [h1, h2]
      · by_cases h3 : f.size < MIN_MEDIA_SIZE
        · simp [h1, h2, h3]
        · simp [h1, h2, Nat.not_lt.mp h3]
  · tauto

theorem C3_classification_partition_witness :
    (⟨"/lib/Movie/movie.mkv", 200 * 1024 * 1024, 3, 1, 0⟩ : MediaFile) ∈
      (classify_files [⟨"/lib/Movie/movie.mkv", 200 * 1024 * 1024, 3, 1, 0⟩]).main_files := by
  have h := C3_classification_partition
    [⟨"/lib/Movie/movie.mkv", 200 * 1024 * 1024, 3, 1, 0⟩]
    ⟨"/lib/Movie/movie.mkv", 200 * 1024 * 1024, 3, 1, 0⟩ (by decide)
  exact (h.2.2.2.2).mpr (by decide)

/-! ## C4 -/

theorem contains_eq_false_iff {α : Type} [BEq α] [LawfulBEq α] {l : List α} {a : α} :
    l.contains a = false ↔ a ∉ l := by
  rw [← Bool.not_eq_true]
  exact not_congr List.elem_iff

/-- A main-classified library file tracked by nothing. -/
def lfOrph : MediaFile := ⟨"/lib/Movie/m.mkv", 200 * 1024 * 1024, 9, 1, 5⟩

/-- C4 counterexample: the claim fixes the library-side reason string as
`"Not tracked by library services"`, but the code emits
`"Not tracked by Radarr or Sonarr"`. -/
theorem C4_library_reason_counterexample :
    (find_orphaned_files [] [lfOrph] [] [] (some [])).map (·.reason) =
      ["Not tracked by Radarr or Sonarr"] ∧
    "Not tracked by Radarr or Sonarr" ≠ "Not tracked by library services" := by
  decide

/-- C4 (amended): the orphan list consists exactly of the torrent-scan
files in no torrent file list, with location `"torrent"` and reason
`"Not tracked by any torrent"`, followed by the library-scan files claimed
by neither Radarr nor Sonarr, with location `"library"` and reason
`"Not tracked by Radarr or Sonarr"` (the amendment relative to the claim);
no other files are emitted. -/
theorem C4_orphan_characterisation (tf lf : List MediaFile)
    (ts : List TorrentInfo) (rm : List ArrMedia) (sr : Option (List String))
    (o : OrphanedFile) :
    o ∈ find_orphaned_files tf lf ts rm sr ↔
      ((∃ f ∈ tf, ¬(∃ t ∈ ts, ∃ g ∈ t.files, g.path = f.path) ∧
          o = ⟨f.path, f.size, "torrent", "Not tracked by any torrent", f.modified⟩) ∨
        (∃ f ∈ lf, ¬(∃ m ∈ rm, m.file_path = some f.path) ∧ f.path ∉ sr.getD [] ∧
          o = ⟨f.path, f.size, "library", "Not tracked by Radarr or Sonarr", f.modified⟩)) := by
  simp only [find_orphaned_files, List.mem_append, List.mem_map, List.mem_filter,
    Bool.and_eq_true, Bool.not_eq_true', contains_eq_false_iff,
    torrent_tracked_paths, radarr_tracked_paths, List.mem_flatMap, List.mem_map,
    List.mem_filterMap]
  constructor
  · rintro (⟨f, ⟨hf, hna⟩, rfl⟩ | ⟨f, ⟨hf, hna, hnb⟩, rfl⟩)
    · refine Or.inl ⟨f, hf, ?_, rfl⟩
      rintro ⟨t, ht, g, hg, hgp⟩
      exact hna ⟨t, ht, ⟨g, hg, hgp⟩⟩
    · refine Or.inr ⟨f, hf, ?_, hnb, rfl⟩
      rintro ⟨m, hm, hmp⟩
      exact hna ⟨m, hm, hmp⟩
  · rintro (⟨f, hf, hna, rfl⟩ | ⟨f, hf, hna, hnb, rfl⟩)
    · refine Or.inl ⟨f, ⟨hf, ?_⟩, rfl⟩
      rintro ⟨t, ht, g, hg, hgp⟩
      exact hna ⟨t, ht, g, hg, hgp⟩
    · refine Or.inr ⟨f, ⟨hf, ?_, hnb⟩, rfl⟩
      rintro ⟨m, hm, hmp⟩
      exact hna ⟨m, hm, hmp⟩

/-! ## Cross-seed characterisation (shared by C5 and C10) -/

/-- The torrents with a non-empty file list whose exact path set is `S`. -/
def tsFilter (ts : List TorrentInfo) (S : Finset String) : List TorrentInfo :=
  ts.filter (fun t => !t.files.isEmpty && decide (pathSet t = S))

def groupKeys (m : List (Finset String × List TorrentInfo)) : List (Finset String) :=
  m.map (·.1)

def groupLookup (m : List (Finset String × List TorrentInfo)) (S : Finset String) :
    Option (List TorrentInfo) :=
  (m.find? (fun e => decide (e.1 = S))).map (·.2)

theorem groupLookup_bump (m : List (Finset String × List TorrentInfo))
    (k : Finset String) (t : TorrentInfo) (S : Finset String) :
    groupLookup (bumpGroup m k t) S =
      if S = k then some ((groupLookup m k).getD [] ++ [t]) else groupLookup m S := by
  induction m with
  | nil =>
    by_cases hS : S = k
    · have hks : (k = S) = True := eq_true hS.symm
      simp [bumpGroup, groupLookup, hS, hks]
    · have hks : (k = S) = False := eq_false (fun hh => hS hh.symm)
      simp [bumpGroup, groupLookup, hS, hks]
  | cons e rest ih =>
    obtain ⟨k2, l⟩ := e
    by_cases hek : k2 = k
    · by_cases hS : S = k
      · have hes : (k2 = S) = True := eq_true (hek.trans hS.symm)
        have hkk : (k2 = k) = True := eq_true hek
        simp [bumpGroup, groupLookup, hes, hS, hkk]
      · have hes : (k2 = S) = False := eq_false (fun hh => hS (hh.symm.trans hek))
        have hkk : (k2 = k) = True := eq_true hek
        simp [bumpGroup, groupLookup, hes, hS, hkk]
    · by_cases hes : k2 = S
      · have hS : (S = k) = False := eq_false (fun hh => hek (hes.trans hh))
        have hkk : (k2 = k) = False := eq_false hek
        simp [bumpGroup, groupLookup, hes, hS, hkk]
      · have hkk : (k2 = k) = False := eq_false hek
        have hes2 : (k2 = S) = False := eq_false hes
        have hstep : bumpGroup ((k2, l) :: rest) k t = (k2, l) :: bumpGroup rest k t := by
          simp [bumpGroup, hek]
        rw [hstep]
        have h2 : groupLookup ((k2, l) :: bumpGroup rest k t) S =
            groupLookup (bumpGroup rest k t) S := by
          simp [groupLookup, hes2]
        have h3 : groupLookup ((k2, l) :: rest) S = groupLookup rest S := by
          simp [groupLookup, hes2]
        have h4 : groupLookup ((k2, l) :: rest) k = groupLookup rest k := by
          simp [groupLookup, hkk]
        rw [h2, ih, h3, h4]

theorem groupKeys_bump (m : List (Finset String × List TorrentInfo))
    (k : Finset String) (t : TorrentInfo) :
    groupKeys (bumpGroup m k t) =
      if k ∈ groupKeys m then groupKeys m else groupKeys m ++ [k] := by
  induction m with
  | nil => simp [bumpGroup, groupKeys]
  | cons e rest ih =>
    by_cases hek : e.1 = k
    · simp [bumpGroup, hek, groupKeys]
    · have : ¬(k = e.1) := fun hh => hek hh.symm
      simp only [bumpGroup, if_neg hek, groupKeys, List.map_cons, List.mem_cons]
      simp only [groupKeys] at ih
      rw [ih]
      by_cases hk : k ∈ rest.map (·.1)
      · simp [hk, this]
      · simp [hk, this]

theorem groupKeys_bump_nodup (m : List (Finset String × List TorrentInfo))
    (k : Finset String) (t : TorrentInfo) (h : (groupKeys m).Nodup) :
    (groupKeys (bumpGroup m k t)).Nodup := by
  rw [groupKeys_bump]
  by_cases hk : k ∈ groupKeys m
  · simpa [hk]
  · simpa [hk] using List.Nodup.append h (List.nodup_singleton k) (by simpa using hk)

theorem groupKeys_fold_nodup (ts : List TorrentInfo)
    (acc : List (Finset String × List TorrentInfo)) (h : (groupKeys acc).Nodup) :
    (groupKeys (ts.foldl groupStep acc)).Nodup := by
  induction ts generalizing acc with
  | nil => simpa
  | cons t rest ih =>
    simp only [List.foldl_cons]
    apply ih
    unfold groupStep
    split
    · exact h
    · exact groupKeys_bump_nodup _ _ _ h

theorem groupLookup_of_mem (m : List (Finset String × List TorrentInfo))
    (S : Finset String) (l : List TorrentInfo) (hnd : (groupKeys m).Nodup)
    (hm : (S, l) ∈ m) : groupLookup m S = some l := by
  induction m with
  | nil => cases hm
  | cons e rest ih =>
    rcases List.mem_cons.mp hm with he | hrest
    · simp [groupLookup, List.find?_cons, ← he]
    · have hes : e.1 ≠ S := by
        intro hh
        have : S ∈ groupKeys rest := by
          simpa [groupKeys] using List.mem_map_of_mem (f := (·.1)) hrest
        simp only [groupKeys, List.map_cons, List.nodup_cons] at hnd
        exact hnd.1 (hh ▸ this)
      have h1 : decide (e.1 = S) = false := by simp [hes]
      simp only [groupLookup, List.find?_cons, h1, cond_false]
      have hnd2 : (groupKeys rest).Nodup := by
        simp only [groupKeys, List.map_cons, List.nodup_cons] at hnd
        exact hnd.2
      exact ih hnd2 hrest

theorem mem_of_groupLookup (m : List (Finset String × List TorrentInfo))
    (S : Finset String) (l : List TorrentInfo)
    (h : groupLookup m S = some l) : (S, l) ∈ m := by
  simp only [groupLookup, Option.map_eq_some'] at h
  obtain ⟨e, he, hel⟩ := h
  have h1 := List.find?_some he
  have h2 := List.mem_of_find?_eq_some he
  simp only [decide_eq_true_eq] at h1
  have : e = (S, l) := by
    cases e
    simp_all
  exact this ▸ h2

theorem groupLookup_fold (ts : List TorrentInfo)
    (acc : List (Finset String × List TorrentInfo)) (S : Finset String) :
    (groupLookup (ts.foldl groupStep acc) S).getD [] =
      (groupLookup acc S).getD [] ++ tsFilter ts S := by
  induction ts generalizing acc with
  | nil => simp [tsFilter]
  | cons t rest ih =>
    rw [List.foldl_cons, ih]
    by_cases hemp : t.files.isEmpty
    · have hstep : groupStep acc t = acc := by simp [groupStep, hemp]
      have hf : tsFilter (t :: rest) S = tsFilter rest S := by
        simp [tsFilter, List.filter_cons, hemp]
      rw [hstep, hf]
    · have hstep : groupStep acc t = bumpGroup acc (pathSet t) t := by
        simp [groupStep, hemp]
      rw [hstep, groupLookup_bump]
      by_cases hps : pathSet t = S
      · have hf : tsFilter (t :: rest) S = t :: tsFilter rest S := by
          simp [tsFilter, List.filter_cons, hemp, hps]
        rw [hf, if_pos hps.symm, Option.getD_some, hps]
        simp [List.append_assoc]
      · have hf : tsFilter (t :: rest) S = tsFilter rest S := by
          simp [tsFilter, List.filter_cons, hps]
        rw [hf, if_neg (fun hh => hps hh.symm)]

theorem groupLookup_file_to_torrents (ts : List TorrentInfo) (S : Finset String)
    (h : tsFilter ts S ≠ []) :
    groupLookup (file_to_torrents ts) S = some (tsFilter ts S) := by
  show groupLookup (ts.foldl groupStep []) S = some (tsFilter ts S)
  have hfold := groupLookup_fold ts [] S
  have hnil : groupLookup ([] : List (Finset String × List TorrentInfo)) S = none := rfl
  rw [hnil, Option.getD_none, List.nil_append] at hfold
  cases hl : groupLookup (ts.foldl groupStep []) S with
  | none =>
    rw [hl, Option.getD_none] at hfold
    exact absurd hfold.symm h
  | some l =>
    rw [hl, Option.getD_some] at hfold
    rw [hfold]

/-- Membership characterisation of `_find_cross_seed_groups`: the groups
are exactly, for each path set `S` shared by at least two torrents with
non-empty file lists, the record grouping those torrents with their
distinct non-absent trackers and the first member's total file size. -/
theorem cross_seed_groups_mem (ts : List TorrentInfo) (g : CrossSeedGroup) :
    g ∈ find_cross_seed_groups ts ↔
      ∃ S : Finset String, 2 ≤ (tsFilter ts S).length ∧
        g = ⟨S, tsFilter ts S, trackerSet (tsFilter ts S), repSize (tsFilter ts S)⟩ := by
  unfold find_cross_seed_groups
  rw [List.mem_filterMap]
  constructor
  · rintro ⟨e, he, hsome⟩
    by_cases hlen : e.2.length > 1
    · rw [if_pos hlen] at hsome
      have hnd : (groupKeys (file_to_torrents ts)).Nodup :=
        groupKeys_fold_nodup ts [] (by simp [groupKeys])
      have hlk : groupLookup (file_to_torrents ts) e.1 = some e.2 := by
        apply groupLookup_of_mem _ _ _ hnd
        cases e
        exact he
      have hfl := groupLookup_fold ts [] e.1
      have hnil : groupLookup ([] : List (Finset String × List TorrentInfo)) e.1 = none :=
        rfl
      rw [hnil, Option.getD_none, List.nil_append] at hfl
      simp only [file_to_torrents] at hlk
      rw [hlk, Option.getD_some] at hfl
      refine ⟨e.1, ?_, ?_⟩
      · rw [← hfl]; omega
      · rw [← hfl]
        exact (Option.some_injective _ hsome).symm
    · rw [if_neg hlen] at hsome
      cases hsome
  · rintro ⟨S, hlen, rfl⟩
    have hne : tsFilter ts S ≠ [] := by
      intro hh
      rw [hh] at hlen
      simp at hlen
    have hlk := groupLookup_file_to_torrents ts S hne
    refine ⟨(S, tsFilter ts S), mem_of_groupLookup _ _ _ hlk, ?_⟩
    have hgt : (S, tsFilter ts S).2.length > 1 := by
      simp only []
      omega
    rw [if_pos hgt]

/-! ## C5 and C10 fixtures -/

def eT1 : TorrentInfo := ⟨"h1", "e1", "", "/dl", "stalledUP", 0, none, []⟩
def eT2 : TorrentInfo := ⟨"h2", "e2", "", "/dl", "stalledUP", 0, none, []⟩
def tA1 : TorrentInfo :=
  ⟨"a1", "A", "movies", "/dl", "uploading", 0, some "https://tracker-a/ann",
   [⟨"/dl/A/x.mkv", 200 * 1024 * 1024⟩]⟩
def tA2 : TorrentInfo :=
  ⟨"a2", "A", "movies", "/dl", "uploading", 0, some "https://tracker-b/ann",
   [⟨"/dl/A/x.mkv", 200 * 1024 * 1024⟩]⟩
def gA : CrossSeedGroup :=
  ⟨pathSet tA1, [tA1, tA2], trackerSet [tA1, tA2], repSize [tA1, tA2]⟩

/-! ## C5 -/

/-- C5 counterexample: two distinct torrents with empty file lists have
identical (empty) file-path sets, yet the code forms no group for them
(`if torrent.files:` excludes them), contradicting the claim that two
torrents whose file-path sets are equal as sets are in one group. -/
theorem C5_empty_set_counterexample :
    pathSet eT1 = pathSet eT2 ∧ eT1 ≠ eT2 ∧
    find_cross_seed_groups [eT1, eT2] = [] := by
  decide

/-- C5 (amended): restricted to torrents with a non-empty file list,
cross-seed grouping behaves as claimed: every reported group's members are
exactly the (non-empty) torrents whose path set equals the group's set —
so equal sets are grouped together and strict supersets are not — a group
needs at least 2 such members, its trackers are the distinct non-absent
tracker URLs of its members, and its total size is the file-size sum of
one representative member; conversely every path set shared by at least
two non-empty torrents yields a group. -/
theorem C5_cross_seed_grouping (ts : List TorrentInfo) :
    (∀ g ∈ find_cross_seed_groups ts,
        g.torrents = tsFilter ts g.files ∧
        2 ≤ g.torrents.length ∧
        g.trackers = (g.torrents.filterMap (·.tracker)).toFinset ∧
        ∃ t ∈ g.torrents, g.total_size = (t.files.map (·.size)).sum) ∧
    (∀ S : Finset String, 2 ≤ (tsFilter ts S).length →
        ∃ g ∈ find_cross_seed_groups ts, g.files = S ∧ g.torrents = tsFilter ts S) := by
  constructor
  · intro g hg
    obtain ⟨S, hlen, rfl⟩ := (cross_seed_groups_mem ts g).mp hg
    refine ⟨rfl, hlen, rfl, ?_⟩
    cases hts : tsFilter ts S with
    | nil =>
      rw [hts] at hlen
      simp at hlen
    | cons t rest =>
      refine ⟨t, ?_, ?_⟩
      · simp
      · simp [repSize]
  · intro S hlen
    have hm := (cross_seed_groups_mem ts
      ⟨S, tsFilter ts S, trackerSet (tsFilter ts S), repSize (tsFilter ts S)⟩).mpr
      ⟨S, hlen, rfl⟩
    exact ⟨_, hm, rfl, rfl⟩

theorem C5_cross_seed_grouping_witness :
    gA.torrents = tsFilter [tA1, tA2] gA.files ∧ 2 ≤ gA.torrents.length ∧
    gA.trackers = (gA.torrents.filterMap (·.tracker)).toFinset ∧
    ∃ t ∈ gA.torrents, gA.total_size = (t.files.map (·.size)).sum :=
  (C5_cross_seed_grouping [tA1, tA2]).1 gA (by decide)

/-! ## C10 -/

/-- C10: a torrent with an empty file list is never a member of any
cross-seed group, and in particular two torrents that both have empty
file lists form no group even though their file-path sets are identical
(both empty). -/
theorem C10_empty_torrents_never_grouped :
    (∀ (ts : List TorrentInfo) (g : CrossSeedGroup), g ∈ find_cross_seed_groups ts →
        ∀ t ∈ g.torrents, t.files ≠ []) ∧
    (∀ t1 t2 : TorrentInfo, t1.files = [] → t2.files = [] →
        find_cross_seed_groups [t1, t2] = []) := by
  constructor
  · intro ts g hg t ht
    obtain ⟨S, hlen, rfl⟩ := (cross_seed_groups_mem ts g).mp hg
    have ht2 : t ∈ tsFilter ts S := ht
    simp only [tsFilter, List.mem_filter, Bool.and_eq_true, Bool.not_eq_true'] at ht2
    intro hnil
    have hne := ht2.2.1
    rw [hnil] at hne
    simp at hne
  · intro t1 t2 h1 h2
    simp [find_cross_seed_groups, file_to_torrents, groupStep, h1, h2]

theorem C10_empty_torrents_never_grouped_witness :
    tA1.files ≠ [] ∧ find_cross_seed_groups [eT1, eT2] = [] := by
  constructor
  · exact C10_empty_torrents_never_grouped.1 [tA1, tA2] gA (by decide) tA1 (by decide)
  · exact C10_empty_torrents_never_grouped.2 eT1 eT2 rfl rfl

/-! ## Detector invariant and the C6 round-trip -/

/-- Invariant of every detector state reachable by scanning `fs`: the
inode-map keys are distinct, and every path filed under key `i` stats
successfully with inode `i`. -/
def DetInv (fs : Filesystem) (det : HardlinkDetector) : Prop :=
  (det.inode_map.map (·.1)).Nodup ∧
  ∀ e ∈ det.inode_map, ∀ p ∈ e.2, ∃ st, statOf fs p = some st ∧ st.st_ino = e.1

theorem bumpInode_keys (m : List (Nat × List String)) (i : Nat) (p : String) :
    (bumpInode m i p).map (·.1) =
      if i ∈ m.map (·.1) then m.map (·.1) else m.map (·.1) ++ [i] := by
  induction m with
  | nil => simp [bumpInode]
  | cons e rest ih =>
    obtain ⟨j, l⟩ := e
    by_cases hji : j = i
    · simp [bumpInode, hji]
    · have hij : ¬(i = j) := fun hh => hji hh.symm
      have hb : (j == i) = false := by simp [hji]
      simp only [bumpInode, hb, Bool.false_eq_true, if_false, List.map_cons, ih,
        List.mem_cons]
      by_cases hk : i ∈ rest.map (·.1)
      · simp [hk, hij]
      · simp [hk, hij]

theorem bumpInode_keys_nodup (m : List (Nat × List String)) (i : Nat) (p : String)
    (h : (m.map (·.1)).Nodup) : ((bumpInode m i p).map (·.1)).Nodup := by
  rw [bumpInode_keys]
  by_cases hk : i ∈ m.map (·.1)
  · simpa [hk]
  · simpa [hk] using List.Nodup.append h (List.nodup_singleton i) (by simpa using hk)

theorem bumpInode_cases (m : List (Nat × List String)) (i : Nat) (p : String) :
    ∀ e ∈ bumpInode m i p,
      e ∈ m ∨ (e.1 = i ∧ (e.2 = [p] ∨ ∃ l, (i, l) ∈ m ∧ e.2 = l ++ [p])) := by
  induction m with
  | nil =>
    intro e he
    simp only [bumpInode, List.mem_singleton] at he
    exact Or.inr ⟨by rw [he], Or.inl (by rw [he])⟩
  | cons f rest ih =>
    obtain ⟨j, l⟩ := f
    intro e he
    by_cases hji : j = i
    · have hb : (j == i) = true := by simp [hji]
      simp only [bumpInode, hb, if_true] at he
      rcases List.mem_cons.mp he with he1 | he2
      · exact Or.inr ⟨by rw [he1, hji], Or.inr ⟨l, by simp [hji], by rw [he1]⟩⟩
      · exact Or.inl (List.mem_cons_of_mem _ he2)
    · have hb : (j == i) = false := by simp [hji]
      simp only [bumpInode, hb, Bool.false_eq_true, if_false] at he
      rcases List.mem_cons.mp he with he1 | he2
      · exact Or.inl (by rw [he1]; exact List.mem_cons_self _ _)
      · rcases ih e he2 with hm | ⟨hei, hc⟩
        · exact Or.inl (List.mem_cons_of_mem _ hm)
        · refine Or.inr ⟨hei, ?_⟩
          rcases hc with h1 | ⟨l2, hl2, h2⟩
          · exact Or.inl h1
          · exact Or.inr ⟨l2, List.mem_cons_of_mem _ hl2, h2⟩

theorem scanStep_inv (fs : Filesystem) (acc : List MediaFile × HardlinkDetector)
    (p : String) (h : DetInv fs acc.2) : DetInv fs (scanStep fs acc p).2 := by
  unfold scanStep
  cases hst : statOf fs p with
  | none => exact h
  | some st =>
    refine ⟨bumpInode_keys_nodup _ _ _ h.1, ?_⟩
    intro e he q hq
    rcases bumpInode_cases acc.2.inode_map st.st_ino p e he with hmem | ⟨hei, hc⟩
    · exact h.2 e hmem q hq
    · rcases hc with h1 | ⟨l, hl, h2⟩
      · rw [h1, List.mem_singleton] at hq
        exact ⟨st, hq ▸ hst, hei.symm⟩
      · rw [h2, List.mem_append, List.mem_singleton] at hq
        rcases hq with hq | hq
        · obtain ⟨st2, hst2, hi2⟩ := h.2 (st.st_ino, l) hl q hq
          exact ⟨st2, hst2, by rw [hi2, hei]⟩
        · exact ⟨st, hq ▸ hst, hei.symm⟩

theorem foldl_scanStep_inv (fs : Filesystem) (entries : List String)
    (acc : List MediaFile × HardlinkDetector) (h : DetInv fs acc.2) :
    DetInv fs ((entries.foldl (scanStep fs) acc)).2 := by
  induction entries generalizing acc with
  | nil => exact h
  | cons e rest ih => exact ih _ (scanStep_inv fs acc e h)

theorem scan_directory_inv (fs : Filesystem) (dir : String) (det : HardlinkDetector)
    (h : DetInv fs det) : DetInv fs (scan_directory fs dir det).2 := by
  unfold scan_directory
  cases findDir fs dir with
  | none => exact h
  | some d => exact foldl_scanStep_inv fs d.entries ([], det) h

theorem rootStep_inv (fs : Filesystem) (acc : List MediaFile × HardlinkDetector)
    (r : String) (h : DetInv fs acc.2) : DetInv fs (rootStep fs acc r).2 := by
  unfold rootStep
  split
  · exact scan_directory_inv fs r acc.2 h
  · exact h

theorem scan_roots_inv (fs : Filesystem) (roots : List String) (det : HardlinkDetector)
    (h : DetInv fs det) : DetInv fs (scan_roots fs roots det).2 := by
  unfold scan_roots
  have haux : ∀ (rs : List String) (acc : List MediaFile × HardlinkDetector),
      DetInv fs acc.2 → DetInv fs ((rs.foldl (rootStep fs) acc)).2 := by
    intro rs
    induction rs with
    | nil => intro acc hacc; exact hacc
    | cons r rest ih => intro acc hacc; exact ih _ (rootStep_inv fs acc r hacc)
  exact haux roots ([], det) h

theorem DetInv_empty (fs : Filesystem) : DetInv fs emptyDetector :=
  ⟨List.nodup_nil, by intro e he; cases he⟩

theorem inodeGet_of_mem (m : List (Nat × List String)) (i : Nat) (l : List String)
    (hnd : (m.map (·.1)).Nodup) (hm : (i, l) ∈ m) : inodeGet m i = some l := by
  induction m with
  | nil => cases hm
  | cons e rest ih =>
    rcases List.mem_cons.mp hm with he | hrest
    · simp [inodeGet, List.find?_cons, ← he]
    · have hne : e.1 ≠ i := by
        intro hh
        have hk : i ∈ rest.map (·.1) := by
          simpa using List.mem_map_of_mem (f := (·.1)) hrest
        simp only [List.map_cons, List.nodup_cons] at hnd
        exact hnd.1 (hh ▸ hk)
      have h1 : (e.1 == i) = false := by simp [hne]
      simp only [inodeGet, List.find?_cons, h1, cond_false]
      have hnd2 : (rest.map (·.1)).Nodup := by
        simp only [List.map_cons, List.nodup_cons] at hnd
        exact hnd.2
      exact ih hnd2 hrest

theorem mem_get_hardlink_groups (det : HardlinkDetector) (g : HardlinkGroup)
    (hg : g ∈ get_hardlink_groups det) :
    ∃ e ∈ det.inode_map, e.2.length > 1 ∧ g.inode = e.1 ∧ g.files = e.2 := by
  unfold get_hardlink_groups at hg
  rw [List.mem_filterMap] at hg
  obtain ⟨e, he, hsome⟩ := hg
  by_cases hlen : e.2.length > 1
  · rw [if_pos hlen] at hsome
    cases he2 : e.2 with
    | nil =>
      rw [he2] at hlen
      simp at hlen
    | cons p0 tl =>
      rw [he2] at hsome
      dsimp only [] at hsome
      cases hcg : cacheGet det.file_cache p0 with
      | none =>
        rw [hcg] at hsome
        dsimp only [] at hsome
        cases hsome
      | some ff =>
        rw [hcg] at hsome
        dsimp only [] at hsome
        injection hsome with hmk
        refine ⟨e, he, hlen, ?_, ?_⟩
        · rw [← hmk]
        · rw [← hmk, he2]
  · rw [if_neg hlen] at hsome
    cases hsome

/-! ## C6 -/

/-- C6 counterexample: for a path that cannot be stat'ed the claim says
`hardlinksFor` returns `[path]`, but the code returns the empty list. -/
theorem C6_unstatable_counterexample :
    get_hardlinks_for_file fsPair (scan_roots fsPair ["/d"] emptyDetector).2 "/gone" =
      [] ∧
    ([] : List String) ≠ ["/gone"] := by
  decide

/-- C6 (amended): for any detector state produced by scanning, a path
inside a reported `HardlinkGroup` round-trips — `get_hardlinks_for_file`
returns exactly that group's file list; a path whose inode is not indexed
(or indexed as the singleton `[p]`) yields `[p]`; but a path that cannot
be stat'ed yields `[]`, not `[path]` as claimed. -/
theorem C6_hardlink_lookup (fs : Filesystem) (roots : List String)
    (det : HardlinkDetector) (hdet : det = (scan_roots fs roots emptyDetector).2) :
    (∀ g ∈ get_hardlink_groups det, ∀ p ∈ g.files,
        get_hardlinks_for_file fs det p = g.files) ∧
    (∀ p, statOf fs p = none → get_hardlinks_for_file fs det p = []) ∧
    (∀ p st, statOf fs p = some st → inodeGet det.inode_map st.st_ino = none →
        get_hardlinks_for_file fs det p = [p]) ∧
    (∀ p st, statOf fs p = some st → inodeGet det.inode_map st.st_ino = some [p] →
        get_hardlinks_for_file fs det p = [p]) := by
  have hinv : DetInv fs det := by
    rw [hdet]
    exact scan_roots_inv fs roots emptyDetector (DetInv_empty fs)
  refine ⟨?_, ?_, ?_, ?_⟩
  · intro g hg p hp
    obtain ⟨e, he, hlen, hino, hfiles⟩ := mem_get_hardlink_groups det g hg
    rw [hfiles] at hp
    obtain ⟨st, hst, hsi⟩ := hinv.2 e he p hp
    have hig : inodeGet det.inode_map st.st_ino = some e.2 := by
      rw [hsi]
      apply inodeGet_of_mem _ _ _ hinv.1
      obtain ⟨e1, e2⟩ := e
      exact he
    simp [get_hardlinks_for_file, hst, hig, hfiles]
  · intro p hst
    simp [get_hardlinks_for_file, hst]
  · intro p st hst hig
    simp [get_hardlinks_for_file, hst, hig]
  · intro p st hst hig
    simp [get_hardlinks_for_file, hst, hig]

theorem C6_hardlink_lookup_witness :
    get_hardlinks_for_file fsPair (scan_roots fsPair ["/d"] emptyDetector).2 "/d/a" =
      ["/d/a", "/d/b"] := by
  have h := C6_hardlink_lookup fsPair ["/d"]
    (scan_roots fsPair ["/d"] emptyDetector).2 rfl
  have hg : (⟨7, ["/d/a", "/d/b"], 300, 2⟩ : HardlinkGroup) ∈
      get_hardlink_groups (scan_roots fsPair ["/d"] emptyDetector).2 := by decide
  exact h.1 _ hg "/d/a" (by decide)

/-! ## C7 -/

/-- A torrent-root filesystem holding one clean-named 50 MiB video. -/
def fs50 : Filesystem :=
  ⟨[⟨"/tor", ["/tor/m.mkv"]⟩],
   [("/tor/m.mkv", ⟨1, 11, 50 * 1024 * 1024, 1, 0⟩)]⟩

/-- C7 counterexample: a 50 MiB file discovered under a torrent root is
*not* classified main (the torrent-root filesystem scan uses the same
100 MiB floor as the library scan), even though it clears the 10 MiB
torrent-list floor — so the claimed 10 MiB main-classification floor for
torrent-root scans does not exist. -/
theorem C7_asymmetry_counterexample :
    (scan_all_fs fs50 ["/tor"] []).torrent_files = [] ∧
    should_skip_torrent_file "/tor/m.mkv" (50 * 1024 * 1024) = false ∧
    10 * 1024 * 1024 ≤ 50 * 1024 * 1024 := by
  decide

/-- C7 (amended): the 10 MiB lenient floor belongs to
`should_skip_torrent_file`, which filters the file lists reported by
qBittorrent, while filesystem classification applies the 100 MiB
`MIN_MEDIA_SIZE` floor identically in both scan contexts: a clean-named
file sized in [10 MiB, 100 MiB) survives torrent-list filtering yet is
classified `extra` (never `main`) whenever it is discovered on disk. -/
theorem C7_size_floor (p : String) (sz : Nat) (hclean : should_skip_file p = false)
    (h10 : 10 * 1024 * 1024 ≤ sz) (h100 : sz < MIN_MEDIA_SIZE) :
    should_skip_torrent_file p sz = false ∧
    ∀ (ino cnt mt : Nat) (files : List MediaFile),
      (⟨p, sz, ino, cnt, mt⟩ : MediaFile) ∈ files →
        (⟨p, sz, ino, cnt, mt⟩ : MediaFile) ∉ (classify_files files).main_files ∧
        (⟨p, sz, ino, cnt, mt⟩ : MediaFile) ∈ (classify_files files).extras := by
  have hall := hclean
  simp only [should_skip_file, Bool.or_eq_false_iff] at hall
  obtain ⟨⟨⟨⟨⟨⟨⟨⟨⟨⟨⟨⟨⟨⟨⟨⟨⟨⟨hsam, hnfo⟩, htxt⟩, hsrt⟩, hsub⟩, hidx⟩, hjpg⟩, hjpeg⟩,
    hpng⟩, hgif⟩, hbmp⟩, hseg1⟩, hseg2⟩, hseg3⟩, hch1⟩, hch2⟩, htrl⟩, hprf⟩, hsrr⟩ :=
    hall
  refine ⟨?_, ?_⟩
  · simp [should_skip_torrent_file, hsam, hnfo, htxt, hsrt, hsub, hidx, hjpg, hjpeg,
      hpng, htrl, hprf, Nat.not_lt.mpr h10]
  · intro ino cnt mt files hmem
    constructor
    · rw [classify_files_main]
      simp [List.mem_filter, hsam, hclean, h100]
    · rw [classify_files_extras]
      simp [List.mem_filter, hmem, hsam, hclean, h100]

theorem C7_size_floor_witness :
    should_skip_torrent_file "/tor/m.mkv" (50 * 1024 * 1024) = false ∧
    (⟨"/tor/m.mkv", 50 * 1024 * 1024, 11, 1, 0⟩ : MediaFile) ∉
      (classify_files [⟨"/tor/m.mkv", 50 * 1024 * 1024, 11, 1, 0⟩]).main_files ∧
    (⟨"/tor/m.mkv", 50 * 1024 * 1024, 11, 1, 0⟩ : MediaFile) ∈
      (classify_files [⟨"/tor/m.mkv", 50 * 1024 * 1024, 11, 1, 0⟩]).extras := by
  have h := C7_size_floor "/tor/m.mkv" (50 * 1024 * 1024) (by decide) (by decide)
    (by decide)
  exact ⟨h.1, (h.2 11 1 0 _ (by decide)).1, (h.2 11 1 0 _ (by decide)).2⟩

/-! ## Relationship-map key lemmas (towards C2) -/

def relKeys (m : RelMap) : List String := m.map (·.1)

theorem relKeys_appendTorrent (m : RelMap) (p h : String) :
    relKeys (relAppendTorrent m p h) = relKeys m := by
  simp only [relKeys, relAppendTorrent, List.map_map]
  apply List.map_congr_left
  intro e _
  by_cases hb : (e.1 == p) = true
  · simp [Function.comp, hb]
  · simp [Function.comp, hb]

theorem relKeys_appendService (m : RelMap) (p s : String) :
    relKeys (relAppendService m p s) = relKeys m := by
  simp only [relKeys, relAppendService, List.map_map]
  apply List.map_congr_left
  intro e _
  by_cases hb : (e.1 == p) = true
  · simp [Function.comp, hb]
  · simp [Function.comp, hb]

theorem relFind_isSome_iff (m : RelMap) (p : String) :
    (relFind m p).isSome = true ↔ p ∈ relKeys m := by
  induction m with
  | nil => simp [relFind, relKeys]
  | cons e rest ih =>
    simp only [relFind, relKeys, List.map_cons, List.mem_cons] at ih ⊢
    by_cases he : e.1 = p
    · have hb : (e.1 == p) = true := by simp [he]
      simp [List.find?_cons, hb, he]
    · have hb : (e.1 == p) = false := by simp [he]
      have hne : ¬(p = e.1) := fun hh => he hh.symm
      simp [List.find?_cons, hb, ih, hne]

theorem findFileInfo_isSome_iff (af : List MediaFile) (p : String) :
    (findFileInfo af p).isSome = true ↔ ∃ f ∈ af, f.path = p := by
  simp [findFileInfo, List.find?_isSome]

theorem mem_relKeys_processTorrentFile (fs : Filesystem) (det : HardlinkDetector)
    (af : List MediaFile) (hs : String) (m : RelMap) (tf : TorrentFile) (q : String) :
    q ∈ relKeys (processTorrentFile fs det af hs m tf) ↔
      q ∈ relKeys m ∨ (q = tf.path ∧ (findFileInfo af tf.path).isSome = true) := by
  by_cases hr : (relFind m tf.path).isSome = true
  · simp only [processTorrentFile, hr, if_true, relKeys_appendTorrent]
    constructor
    · exact Or.inl
    · rintro (h | ⟨rfl, hsome⟩)
      · exact h
      · exact (relFind_isSome_iff m tf.path).mp hr
  · have hrf : (relFind m tf.path).isSome = false := by simpa using hr
    simp only [processTorrentFile, hrf, Bool.false_eq_true, if_false]
    cases hfi : findFileInfo af tf.path with
    | none =>
      simp [relKeys_appendTorrent]
    | some fi =>
      rw [relKeys_appendTorrent]
      simp only [relKeys, List.map_append, List.map_cons, List.map_nil,
        List.mem_append, List.mem_singleton, Option.isSome_some, and_true]

theorem mem_relKeys_foldTF (fs : Filesystem) (det : HardlinkDetector)
    (af : List MediaFile) (hs : String) (tfs : List TorrentFile) (m : RelMap)
    (q : String) :
    q ∈ relKeys (tfs.foldl (processTorrentFile fs det af hs) m) ↔
      q ∈ relKeys m ∨
        ∃ tf ∈ tfs, tf.path = q ∧ (findFileInfo af q).isSome = true := by
  induction tfs generalizing m with
  | nil => simp
  | cons tf rest ih =>
    rw [List.foldl_cons, ih, mem_relKeys_processTorrentFile]
    constructor
    · rintro ((h | ⟨rfl, hsome⟩) | ⟨tf2, h2, h3⟩)
      · exact Or.inl h
      · exact Or.inr ⟨tf, List.mem_cons_self _ _, rfl, hsome⟩
      · exact Or.inr ⟨tf2, List.mem_cons_of_mem _ h2, h3⟩
    · rintro (h | ⟨tf2, h2, h3, h4⟩)
      · exact Or.inl (Or.inl h)
      · rcases List.mem_cons.mp h2 with rfl | h5
        · exact Or.inl (Or.inr ⟨h3.symm, h3 ▸ h4⟩)
        · exact Or.inr ⟨tf2, h5, h3, h4⟩

theorem mem_relKeys_processTorrents (fs : Filesystem) (det : HardlinkDetector)
    (af : List MediaFile) (ts : List TorrentInfo) (m : RelMap) (q : String) :
    q ∈ relKeys (processTorrents fs det af ts m) ↔
      q ∈ relKeys m ∨
        ((∃ t ∈ ts, ∃ tf ∈ t.files, tf.path = q) ∧
          (findFileInfo af q).isSome = true) := by
  unfold processTorrents
  induction ts generalizing m with
  | nil => simp
  | cons t rest ih =>
    rw [List.foldl_cons, ih, mem_relKeys_foldTF]
    constructor
    · rintro ((h | ⟨tf, htf, h3, h4⟩) | ⟨⟨t2, ht2, tf, htf, h3⟩, h4⟩)
      · exact Or.inl h
      · exact Or.inr ⟨⟨t, List.mem_cons_self _ _, tf, htf, h3⟩, h4⟩
      · exact Or.inr ⟨⟨t2, List.mem_cons_of_mem _ ht2, tf, htf, h3⟩, h4⟩
    · rintro (h | ⟨⟨t2, ht2, tf, htf, h3⟩, h4⟩)
      · exact Or.inl (Or.inl h)
      · rcases List.mem_cons.mp ht2 with rfl | h5
        · exact Or.inl (Or.inr ⟨tf, htf, h3, h4⟩)
        · exact Or.inr ⟨⟨t2, h5, tf, htf, h3⟩, h4⟩

theorem mem_relKeys_processRadarrItem (fs : Filesystem) (det : HardlinkDetector)
    (af : List MediaFile) (m : RelMap) (md : ArrMedia) (q : String) :
    q ∈ relKeys (processRadarrItem fs det af m md) ↔
      q ∈ relKeys m ∨
        (md.file_path = some q ∧ (findFileInfo af q).isSome = true) := by
  cases hfp : md.file_path with
  | none => simp [processRadarrItem, hfp]
  | some pp =>
    by_cases hr : (relFind m pp).isSome = true
    · simp only [processRadarrItem, hfp, hr, if_true, relKeys_appendService]
      constructor
      · exact Or.inl
      · rintro (h | ⟨hq, hsome⟩)
        · exact h
        · injection hq with hq2
          exact hq2 ▸ (relFind_isSome_iff m pp).mp hr
    · have hrf : (relFind m pp).isSome = false := by simpa using hr
      simp only [processRadarrItem, hfp, hrf, Bool.false_eq_true, if_false]
      cases hfi : findFileInfo af pp with
      | none =>
        simp only [Option.some.injEq]
        constructor
        · exact Or.inl
        · rintro (h | ⟨rfl, hsome⟩)
          · exact h
          · rw [hfi] at hsome
            cases hsome
      | some fi =>
        simp only [relKeys, List.map_append, List.map_cons, List.map_nil,
          List.mem_append, List.mem_singleton, Option.some.injEq]
        constructor
        · rintro (h | rfl)
          · exact Or.inl h
          · exact Or.inr ⟨rfl, by rw [hfi]; rfl⟩
        · rintro (h | ⟨rfl, hsome⟩)
          · exact Or.inl h
          · exact Or.inr rfl

theorem mem_relKeys_processRadarr (fs : Filesystem) (det : HardlinkDetector)
    (af : List MediaFile) (rm : List ArrMedia) (m : RelMap) (q : String) :
    q ∈ relKeys (processRadarr fs det af rm m) ↔
      q ∈ relKeys m ∨
        ((∃ md ∈ rm, md.file_path = some q) ∧ (findFileInfo af q).isSome = true) := by
  unfold processRadarr
  induction rm generalizing m with
  | nil => simp
  | cons md rest ih =>
    rw [List.foldl_cons, ih, mem_relKeys_processRadarrItem]
    constructor
    · rintro ((h | ⟨h1, h2⟩) | ⟨⟨md2, hmd2, h3⟩, h4⟩)
      · exact Or.inl h
      · exact Or.inr ⟨⟨md, List.mem_cons_self _ _, h1⟩, h2⟩
      · exact Or.inr ⟨⟨md2, List.mem_cons_of_mem _ hmd2, h3⟩, h4⟩
    · rintro (h | ⟨⟨md2, hmd2, h3⟩, h4⟩)
      · exact Or.inl (Or.inl h)
      · rcases List.mem_cons.mp hmd2 with rfl | h5
        · exact Or.inl (Or.inr ⟨h3, h4⟩)
        · exact Or.inr ⟨⟨md2, h5, h3⟩, h4⟩

theorem mem_relKeys_processSonarrPath (fs : Filesystem) (det : HardlinkDetector)
    (af : List MediaFile) (m : RelMap) (pp : String) (q : String) :
    q ∈ relKeys (processSonarrPath fs det af m pp) ↔
      q ∈ relKeys m ∨ (pp = q ∧ (findFileInfo af q).isSome = true) := by
  by_cases hr : (relFind m pp).isSome = true
  · simp only [processSonarrPath, hr, if_true, relKeys_appendService]
    constructor
    · exact Or.inl
    · rintro (h | ⟨rfl, hsome⟩)
      · exact h
      · exact (relFind_isSome_iff m pp).mp hr
  · have hrf : (relFind m pp).isSome = false := by simpa using hr
    simp only [processSonarrPath, hrf, Bool.false_eq_true, if_false]
    cases hfi : findFileInfo af pp with
    | none =>
      constructor
      · exact Or.inl
      · rintro (h | ⟨rfl, hsome⟩)
        · exact h
        · rw [hfi] at hsome
          cases hsome
    | some fi =>
      simp only [relKeys, List.map_append, List.map_cons, List.map_nil,
        List.mem_append, List.mem_singleton]
      constructor
      · rintro (h | rfl)
        · exact Or.inl h
        · exact Or.inr ⟨rfl, by rw [hfi]; rfl⟩
      · rintro (h | ⟨rfl, hsome⟩)
        · exact Or.inl h
        · exact Or.inr rfl

theorem mem_relKeys_processSonarr (fs : Filesystem) (det : HardlinkDetector)
    (af : List MediaFile) (sr : Option (List String)) (m : RelMap) (q : String) :
    q ∈ relKeys (processSonarr fs det af sr m) ↔
      q ∈ relKeys m ∨
        ((∃ L, sr = some L ∧ q ∈ L) ∧ (findFileInfo af q).isSome = true) := by
  cases sr with
  | none => simp [processSonarr]
  | some paths =>
    simp only [processSonarr, Option.some.injEq]
    have haux : ∀ (ps : List String) (m2 : RelMap),
        q ∈ relKeys (ps.foldl (processSonarrPath fs det af) m2) ↔
          q ∈ relKeys m2 ∨ (q ∈ ps ∧ (findFileInfo af q).isSome = true) := by
      intro ps
      induction ps with
      | nil => simp
      | cons pp rest ih =>
        intro m2
        rw [List.foldl_cons, ih, mem_relKeys_processSonarrPath]
        constructor
        · rintro ((h | ⟨rfl, h2⟩) | ⟨h3, h4⟩)
          · exact Or.inl h
          · exact Or.inr ⟨List.mem_cons_self _ _, h2⟩
          · exact Or.inr ⟨List.mem_cons_of_mem _ h3, h4⟩
        · rintro (h | ⟨h3, h4⟩)
          · exact Or.inl (Or.inl h)
          · rcases List.mem_cons.mp h3 with rfl | h5
            · exact Or.inl (Or.inr ⟨rfl, h4⟩)
            · exact Or.inr ⟨h5, h4⟩
    rw [haux paths m]
    constructor
    · rintro (h | ⟨h1, h2⟩)
      · exact Or.inl h
      · exact Or.inr ⟨⟨paths, rfl, h1⟩, h2⟩
    · rintro (h | ⟨⟨L, hL, h1⟩, h2⟩)
      · exact Or.inl h
      · cases hL
        exact Or.inr ⟨h1, h2⟩

/-! ## The key/path invariant of the relationship map -/

def RelPathInv (m : RelMap) : Prop := ∀ e ∈ m, e.2.file_path = e.1

theorem relPathInv_appendTorrent (m : RelMap) (p h : String) (hi : RelPathInv m) :
    RelPathInv (relAppendTorrent m p h) := by
  intro e he
  simp only [relAppendTorrent, List.mem_map] at he
  obtain ⟨e0, he0, rfl⟩ := he
  by_cases hb : (e0.1 == p) = true
  · simpa [hb] using hi e0 he0
  · simpa [hb] using hi e0 he0

theorem relPathInv_appendService (m : RelMap) (p s : String) (hi : RelPathInv m) :
    RelPathInv (relAppendService m p s) := by
  intro e he
  simp only [relAppendService, List.mem_map] at he
  obtain ⟨e0, he0, rfl⟩ := he
  by_cases hb : (e0.1 == p) = true
  · simpa [hb] using hi e0 he0
  · simpa [hb] using hi e0 he0

theorem relPathInv_append_single (m : RelMap) (p : String) (r : FileRelationship)
    (hr : r.file_path = p) (hi : RelPathInv m) : RelPathInv (m ++ [(p, r)]) := by
  intro e he
  rcases List.mem_append.mp he with h | h
  · exact hi e h
  · rw [List.mem_singleton] at h
    rw [h]
    exact hr

theorem relPathInv_processTorrentFile (fs : Filesystem) (det : HardlinkDetector)
    (af : List MediaFile) (hs : String) (m : RelMap) (tf : TorrentFile)
    (hi : RelPathInv m) : RelPathInv (processTorrentFile fs det af hs m tf) := by
  unfold processTorrentFile
  apply relPathInv_appendTorrent
  split
  · exact hi
  · cases hfi : findFileInfo af tf.path with
    | none => exact hi
    | some fi => exact relPathInv_append_single m tf.path _ rfl hi

theorem relPathInv_processTorrents (fs : Filesystem) (det : HardlinkDetector)
    (af : List MediaFile) (ts : List TorrentInfo) (m : RelMap)
    (hi : RelPathInv m) : RelPathInv (processTorrents fs det af ts m) := by
  unfold processTorrents
  induction ts generalizing m with
  | nil => exact hi
  | cons t rest ih =>
    rw [List.foldl_cons]
    apply ih
    have haux : ∀ (tfs : List TorrentFile) (m2 : RelMap), RelPathInv m2 →
        RelPathInv (tfs.foldl (processTorrentFile fs det af t.hash) m2) := by
      intro tfs
      induction tfs with
      | nil => intro m2 h2; exact h2
      | cons tf r2 ih2 =>
        intro m2 h2
        exact ih2 _ (relPathInv_processTorrentFile fs det af t.hash m2 tf h2)
    exact haux t.files m hi

theorem relPathInv_processRadarrItem (fs : Filesystem) (det : HardlinkDetector)
    (af : List MediaFile) (m : RelMap) (md : ArrMedia) (hi : RelPathInv m) :
    RelPathInv (processRadarrItem fs det af m md) := by
  cases hfp : md.file_path with
  | none => simpa only [processRadarrItem, hfp] using hi
  | some pp =>
    by_cases hr : (relFind m pp).isSome = true
    · simpa only [processRadarrItem, hfp, hr, if_true] using
        relPathInv_appendService m pp "radarr" hi
    · have hrf : (relFind m pp).isSome = false := by simpa using hr
      cases hfi : findFileInfo af pp with
      | none =>
        simpa only [processRadarrItem, hfp, hrf, Bool.false_eq_true, if_false, hfi]
          using hi
      | some fi =>
        simp only [processRadarrItem, hfp, hrf, Bool.false_eq_true, if_false, hfi]
        exact relPathInv_append_single m pp _ rfl hi

theorem relPathInv_processRadarr (fs : Filesystem) (det : HardlinkDetector)
    (af : List MediaFile) (rm : List ArrMedia) (m : RelMap)
    (hi : RelPathInv m) : RelPathInv (processRadarr fs det af rm m) := by
  unfold processRadarr
  induction rm generalizing m with
  | nil => exact hi
  | cons md rest ih =>
    rw [List.foldl_cons]
    exact ih _ (relPathInv_processRadarrItem fs det af m md hi)

theorem relPathInv_processSonarrPath (fs : Filesystem) (det : HardlinkDetector)
    (af : List MediaFile) (m : RelMap) (pp : String) (hi : RelPathInv m) :
    RelPathInv (processSonarrPath fs det af m pp) := by
  by_cases hr : (relFind m pp).isSome = true
  · simpa only [processSonarrPath, hr, if_true] using
      relPathInv_appendService m pp "sonarr" hi
  · have hrf : (relFind m pp).isSome = false := by simpa using hr
    cases hfi : findFileInfo af pp with
    | none =>
      simpa only [processSonarrPath, hrf, Bool.false_eq_true, if_false, hfi] using hi
    | some fi =>
      simp only [processSonarrPath, hrf, Bool.false_eq_true, if_false, hfi]
      exact relPathInv_append_single m pp _ rfl hi

theorem relPathInv_processSonarr (fs : Filesystem) (det : HardlinkDetector)
    (af : List MediaFile) (sr : Option (List String)) (m : RelMap)
    (hi : RelPathInv m) : RelPathInv (processSonarr fs det af sr m) := by
  cases sr with
  | none => exact hi
  | some paths =>
    show RelPathInv (paths.foldl (processSonarrPath fs det af) m)
    induction paths generalizing m with
    | nil => exact hi
    | cons pp rest ih =>
      rw [List.foldl_cons]
      exact ih _ (relPathInv_processSonarrPath fs det af m pp hi)

/-! ## C2 -/

theorem mem_build_paths (fs : Filesystem) (det : HardlinkDetector)
    (ts : List TorrentInfo) (rm : List ArrMedia) (sr : Option (List String))
    (af : List MediaFile) (p : String) :
    (∃ r ∈ build_file_relationships fs det ts rm sr af, r.file_path = p) ↔
      p ∈ relKeys (processSonarr fs det af sr
        (processRadarr fs det af rm (processTorrents fs det af ts []))) := by
  have hinv : RelPathInv (processSonarr fs det af sr
      (processRadarr fs det af rm (processTorrents fs det af ts []))) :=
    relPathInv_processSonarr _ _ _ _ _
      (relPathInv_processRadarr _ _ _ _ _
        (relPathInv_processTorrents _ _ _ _ _ (by intro e he; cases he)))
  unfold build_file_relationships relKeys
  constructor
  · rintro ⟨r, hr, hp⟩
    obtain ⟨e, he, rfl⟩ := List.mem_map.mp hr
    exact List.mem_map.mpr ⟨e, he, (hinv e he).symm.trans hp⟩
  · intro hp
    obtain ⟨e, he, hep⟩ := List.mem_map.mp hp
    exact ⟨e.2, List.mem_map.mpr ⟨e, he, rfl⟩, (hinv e he).trans hep⟩

/-- A torrent referencing `/x`, which is absent from the filesystem scan. -/
def tX : TorrentInfo :=
  ⟨"hx", "X", "", "/dl", "uploading", 0, none, [⟨"/x", 200 * 1024 * 1024⟩]⟩

/-- C2 counterexample: a path referenced by a torrent but absent from the
scanned files gets *no* relationship entry at all (the builder requires
`file_info` from the scan before creating one), so the claimed equality
with the three-way union — and the claimed degenerate entry with absent
filesystem identity — both fail. (`FileRelationship.inode` is a required
field; an identity-less entry is not even representable.) -/
theorem C2_dropped_path_counterexample :
    build_file_relationships fsEmpty emptyDetector [tX] [] (some []) [] = [] ∧
    (∃ tf ∈ tX.files, tf.path = "/x") := by
  decide

/-- C2 (amended): the set of relationship paths is the *intersection* of
the tracking-referenced paths (torrent file paths, Radarr file paths, and
the Sonarr episode enumeration when it succeeds) with the paths present
in the filesystem-scan list: a tracked path missing from the scan is
silently dropped (without crashing), and a scanned path that no source
references gets no entry either. -/
theorem C2_relationship_paths (fs : Filesystem) (det : HardlinkDetector)
    (ts : List TorrentInfo) (rm : List ArrMedia) (sr : Option (List String))
    (af : List MediaFile) (p : String) :
    (∃ r ∈ build_file_relationships fs det ts rm sr af, r.file_path = p) ↔
      (((∃ t ∈ ts, ∃ tf ∈ t.files, tf.path = p) ∨
          (∃ md ∈ rm, md.file_path = some p) ∨
          (∃ L, sr = some L ∧ p ∈ L)) ∧
        ∃ f ∈ af, f.path = p) := by
  rw [mem_build_paths, mem_relKeys_processSonarr, mem_relKeys_processRadarr,
    mem_relKeys_processTorrents]
  have hempty : p ∈ relKeys ([] : RelMap) ↔ False := by simp [relKeys]
  simp only [findFileInfo_isSome_iff, hempty, false_or]
  constructor
  · rintro ((⟨h1, hs⟩ | ⟨h2, hs⟩) | ⟨h3, hs⟩)
    · exact ⟨Or.inl h1, hs⟩
    · exact ⟨Or.inr (Or.inl h2), hs⟩
    · exact ⟨Or.inr (Or.inr h3), hs⟩
  · rintro ⟨h1 | h2 | h3, hs⟩
    · exact Or.inl (Or.inl ⟨h1, hs⟩)
    · exact Or.inl (Or.inr ⟨h2, hs⟩)
    · exact Or.inr ⟨h3, hs⟩

/-! ## C8 -/

theorem relFind_appendService_self (m : RelMap) (p s : String) :
    relFind (relAppendService m p s) p =
      (relFind m p).map
        (fun r => { r with arr_services := r.arr_services ++ [s] }) := by
  induction m with
  | nil => rfl
  | cons e rest ih =>
    by_cases hb : (e.1 == p) = true
    · have h1 : relAppendService (e :: rest) p s =
          (e.1, { e.2 with arr_services := e.2.arr_services ++ [s] }) ::
            relAppendService rest p s := by
        simp only [relAppendService, List.map_cons, hb, if_true]
      rw [h1]
      unfold relFind
      rw [List.find?_cons_of_pos _ (by exact hb), List.find?_cons_of_pos _ (by exact hb)]
      rfl
    · have h1 : relAppendService (e :: rest) p s = e :: relAppendService rest p s := by
        simp only [relAppendService, List.map_cons]
        rw [if_neg hb]
      rw [h1]
      unfold relFind
      rw [List.find?_cons_of_neg _ (by exact hb), List.find?_cons_of_neg _ (by exact hb)]
      exact ih

theorem relFind_appendService_ne (m : RelMap) (p q s : String) (h : q ≠ p) :
    relFind (relAppendService m q s) p = relFind m p := by
  induction m with
  | nil => rfl
  | cons e rest ih =>
    by_cases hb : (e.1 == q) = true
    · have heq : e.1 = q := by simpa using hb
      have hep : ¬((e.1 == p) = true) := by
        simp only [beq_iff_eq]
        intro hh
        exact h (heq ▸ hh)
      have h1 : relAppendService (e :: rest) q s =
          (e.1, { e.2 with arr_services := e.2.arr_services ++ [s] }) ::
            relAppendService rest q s := by
        simp only [relAppendService, List.map_cons, hb, if_true]
      rw [h1]
      unfold relFind
      rw [List.find?_cons_of_neg _ (by exact hep), List.find?_cons_of_neg _ (by exact hep)]
      exact ih
    · have h1 : relAppendService (e :: rest) q s = e :: relAppendService rest q s := by
        simp only [relAppendService, List.map_cons]
        rw [if_neg hb]
      rw [h1]
      by_cases hep : (e.1 == p) = true
      · unfold relFind
        rw [List.find?_cons_of_pos _ (by exact hep), List.find?_cons_of_pos _ (by exact hep)]
      · unfold relFind
        rw [List.find?_cons_of_neg _ (by exact hep), List.find?_cons_of_neg _ (by exact hep)]
        exact ih

theorem relFind_append_right (m : RelMap) (x : String × FileRelationship) (p : String)
    (h : (relFind m p).isSome = true) : relFind (m ++ [x]) p = relFind m p := by
  induction m with
  | nil => simp [relFind] at h
  | cons e rest ih =>
    rw [List.cons_append]
    by_cases hb : (e.1 == p) = true
    · unfold relFind
      rw [List.find?_cons_of_pos _ (by exact hb), List.find?_cons_of_pos _ (by exact hb)]
    · unfold relFind at h ⊢
      rw [List.find?_cons_of_neg _ (by exact hb)] at h
      rw [List.find?_cons_of_neg _ (by exact hb), List.find?_cons_of_neg _ (by exact hb)]
      exact ih h

/-- C8 counterexample fixtures: two Radarr records claiming the same
scanned path. -/
def afX : List MediaFile := [⟨"/x", 200 * 1024 * 1024, 3, 1, 0⟩]
def mdX : ArrMedia := ⟨1, "X", "radarr", some "/x", "/lib", true, true⟩
def mdX2 : ArrMedia := ⟨2, "X2", "radarr", some "/x", "/lib", true, true⟩
def rX : FileRelationship := ⟨"/x", 5, 3, 1, [], [], [], false, none⟩
def relM0 : RelMap := [("/x", rX)]

/-- C8 counterexample: the same service (Radarr) claiming one path through
two records yields the identifier `"radarr"` *twice* in that path's
relationship entry — `arr_services` is a list mutated by `append`, never
deduplicated — contradicting the claimed per-service deduplication. -/
theorem C8_duplicate_claims_counterexample :
    (build_file_relationships fsEmpty emptyDetector [] [mdX, mdX2] (some []) afX).map
        (·.arr_services) = [["radarr", "radarr"]] ∧
    List.count "radarr" ["radarr", "radarr"] ≠ 1 := by
  decide

/-- C8 (amended): claims are appended, not deduplicated: starting from a
map whose entry for `p` is `r`, the Radarr phase appends one `"radarr"`
per Radarr record whose `file_path` is `p`, and the Sonarr phase appends
one `"sonarr"` per enumerated episode path equal to `p`; claims from
different services accumulate into their separate appends. -/
theorem C8_claims_append (fs : Filesystem) (det : HardlinkDetector)
    (af : List MediaFile) (rm : List ArrMedia) (sr : List String) (m : RelMap)
    (p : String) (r : FileRelationship) (h : relFind m p = some r) :
    relFind (processRadarr fs det af rm m) p =
      some { r with arr_services := r.arr_services ++
        List.replicate (rm.countP (fun md => md.file_path == some p)) "radarr" } ∧
    relFind (processSonarr fs det af (some sr) m) p =
      some { r with arr_services := r.arr_services ++
        List.replicate (sr.countP (fun q => q == p)) "sonarr" } := by
  constructor
  · induction rm generalizing m r with
    | nil => simpa [processRadarr] using h
    | cons md rest ih =>
      cases hfp : md.file_path with
      | none =>
        have hstep : processRadarrItem fs det af m md = m := by
          simp [processRadarrItem, hfp]
        have hcount : (md :: rest).countP (fun md2 => md2.file_path == some p) =
            rest.countP (fun md2 => md2.file_path == some p) := by
          simp [List.countP_cons, hfp]
        rw [hcount]
        show relFind
          (rest.foldl (processRadarrItem fs det af) (processRadarrItem fs det af m md))
          p = _
        rw [hstep]
        exact ih m r h
      | some pq =>
        by_cases hq : pq = p
        · subst hq
          have hsome : (relFind m pq).isSome = true := by rw [h]; rfl
          have hstep : processRadarrItem fs det af m md =
              relAppendService m pq "radarr" := by
            simp [processRadarrItem, hfp, hsome]
          have hfind : relFind (relAppendService m pq "radarr") pq =
              some { r with arr_services := r.arr_services ++ ["radarr"] } := by
            rw [relFind_appendService_self, h]
            rfl
          have hcount : (md :: rest).countP (fun md2 => md2.file_path == some pq) =
              rest.countP (fun md2 => md2.file_path == some pq) + 1 := by
            simp [List.countP_cons, hfp]
          rw [hcount]
          show relFind
            (rest.foldl (processRadarrItem fs det af)
              (processRadarrItem fs det af m md)) pq = _
          rw [hstep]
          have ih2 := ih _ _ hfind
          simp only [processRadarr] at ih2
          rw [ih2]
          simp [List.append_assoc, List.replicate_succ]
        · have hcount : (md :: rest).countP (fun md2 => md2.file_path == some p) =
              rest.countP (fun md2 => md2.file_path == some p) := by
            simp [List.countP_cons, hfp, hq]
          rw [hcount]
          show relFind
            (rest.foldl (processRadarrItem fs det af)
              (processRadarrItem fs det af m md)) p = _
          by_cases hr2 : (relFind m pq).isSome = true
          · have hstep : processRadarrItem fs det af m md =
                relAppendService m pq "radarr" := by
              simp [processRadarrItem, hfp, hr2]
            rw [hstep]
            exact ih _ r (by rw [relFind_appendService_ne m p pq "radarr" hq, h])
          · have hrf : (relFind m pq).isSome = false := by simpa using hr2
            cases hfi : findFileInfo af pq with
            | none =>
              have hstep : processRadarrItem fs det af m md = m := by
                simp [processRadarrItem, hfp, hrf, hfi]
              rw [hstep]
              exact ih m r h
            | some fi =>
              have hstep : processRadarrItem fs det af m md = m ++ [(pq,
                  ⟨pq, fi.size, fi.inode, fi.hardlink_count,
                   get_hardlinks_for_file fs det pq, [], ["radarr"], false, none⟩)] := by
                simp [processRadarrItem, hfp, hrf, hfi]
              rw [hstep]
              exact ih _ r (by rw [relFind_append_right m _ p (by rw [h]; rfl), h])
  · show relFind (sr.foldl (processSonarrPath fs det af) m) p = _
    induction sr generalizing m r with
    | nil => simpa using h
    | cons pp rest ih =>
      rw [List.foldl_cons]
      by_cases hq : pp = p
      · subst hq
        have hsome : (relFind m pp).isSome = true := by rw [h]; rfl
        have hstep : processSonarrPath fs det af m pp =
            relAppendService m pp "sonarr" := by
          simp [processSonarrPath, hsome]
        have hfind : relFind (relAppendService m pp "sonarr") pp =
            some { r with arr_services := r.arr_services ++ ["sonarr"] } := by
          rw [relFind_appendService_self, h]
          rfl
        have hcount : (pp :: rest).countP (fun q => q == pp) =
            rest.countP (fun q => q == pp) + 1 := by
          simp [List.countP_cons]
        rw [hcount, hstep]
        rw [ih _ _ hfind]
        simp [List.append_assoc, List.replicate_succ]
      · have hcount : (pp :: rest).countP (fun q => q == p) =
            rest.countP (fun q => q == p) := by
          simp [List.countP_cons, hq]
        rw [hcount]
        by_cases hr2 : (relFind m pp).isSome = true
        · have hstep : processSonarrPath fs det af m pp =
              relAppendService m pp "sonarr" := by
            simp [processSonarrPath, hr2]
          rw [hstep]
          exact ih _ r (by rw [relFind_appendService_ne m p pp "sonarr" hq, h])
        · have hrf : (relFind m pp).isSome = false := by simpa using hr2
          cases hfi : findFileInfo af pp with
          | none =>
            have hstep : processSonarrPath fs det af m pp = m := by
              simp [processSonarrPath, hrf, hfi]
            rw [hstep]
            exact ih m r h
          | some fi =>
            have hstep : processSonarrPath fs det af m pp = m ++ [(pp,
                ⟨pp, fi.size, fi.inode, fi.hardlink_count,
                 get_hardlinks_for_file fs det pp, [], ["sonarr"], false, none⟩)] := by
              simp [processSonarrPath, hrf, hfi]
            rw [hstep]
            exact ih _ r (by rw [relFind_append_right m _ p (by rw [h]; rfl), h])

theorem C8_claims_append_witness :
    relFind (processRadarr fsEmpty emptyDetector afX [mdX, mdX2] relM0) "/x" =
      some ⟨"/x", 5, 3, 1, [], [], ["radarr", "radarr"], false, none⟩ ∧
    relFind (processSonarr fsEmpty emptyDetector afX (some ["/x"]) relM0) "/x" =
      some ⟨"/x", 5, 3, 1, [], [], ["sonarr"], false, none⟩ := by
  have h := C8_claims_append fsEmpty emptyDetector afX [mdX, mdX2] ["/x"] relM0 "/x" rX
    (by decide)
  exact ⟨h.1, h.2⟩

end QbitArr
